import Mathlib

/-!
Verification of `scripts/process_oflc_data.py` (h1b-wage-levels-2026).

The script is a single-pass batch pipeline over three CSV files.  Python
dicts preserve insertion order, so every dict is embedded as an ordered
association list: assigning to an existing key replaces the value in place,
assigning to a fresh key appends at the end.  Numeric values produced by
Python's `float(...)` are modelled as exact rationals (every value a CSV
decimal literal denotes is a rational); `round` is Python's banker's
rounding, round-half-to-even, modelled exactly on `ℚ`.
-/

attribute [local semireducible] Rat.mul Rat.add Rat.sub Rat.inv

namespace OFLC

/-- Lookup in an ordered association list (Python `d[k]` / `k in d`). -/
def lookupA {α β : Type} [DecidableEq α] : List (α × β) → α → Option β
  | [], _ => none
  | (k, v) :: l, a => if k = a then some v else lookupA l a

/-- Python dict assignment `d[k] = v`: replace in place if the key is
present, otherwise append at the end (insertion order preserved). -/
def insertOrUpdate {α β : Type} [DecidableEq α] : List (α × β) → α → β → List (α × β)
  | [], k, v => [(k, v)]
  | (k1, v1) :: l, k, v => if k1 = k then (k1, v) :: l else (k1, v1) :: insertOrUpdate l k v

/-- The keys of an association list, in order. -/
def keysOf {α β : Type} (l : List (α × β)) : List α := l.map Prod.fst

/-- Python's `round` on a rational: round to nearest, ties to even
(banker's rounding). -/
def roundHalfEven (q : ℚ) : ℤ :=
  if q - (⌊q⌋ : ℚ) < 1/2 then ⌊q⌋
  else if 1/2 < q - (⌊q⌋ : ℚ) then ⌊q⌋ + 1
  else if ⌊q⌋ % 2 = 0 then ⌊q⌋ else ⌊q⌋ + 1

/-- 2080 = 40 hours/week * 52 weeks (`HOURS_PER_YEAR`). -/
def HOURS_PER_YEAR : ℚ := 2080

/-- One row of `Geography.csv`: columns Area, AreaName, StateAb,
CountyTownName. -/
structure GeoRow where
  area : String
  areaName : String
  state : String
  county : String
deriving DecidableEq

/-- The per-area record built by `load_geography`:
`{areaName, state, counties}`. -/
structure GeoData where
  areaName : String
  state : String
  counties : List String
deriving DecidableEq

/-- One row of `ALC_Export.csv`.  The four level fields hold the value
`float(row[...])` would produce, or `none` when the column is absent or the
text does not parse as a number (`ValueError` / `KeyError`). -/
structure WageRow where
  area : String
  soc : String
  level1 : Option ℚ
  level2 : Option ℚ
  level3 : Option ℚ
  level4 : Option ℚ
deriving DecidableEq

/-- The `{l1, l2, l3, l4}` record stored per (area, soc) by `load_wages`. -/
structure Levels where
  l1 : ℤ
  l2 : ℤ
  l3 : ℤ
  l4 : ℤ
deriving DecidableEq

/-- One row of `oes_soc_occs.csv`: columns soccode, Title. -/
structure OccRow where
  code : String
  title : String
deriving DecidableEq

/-- One value of the county search index built by
`create_county_search_index`. -/
structure CountyEntry where
  area : String
  areaName : String
  state : String
  county : String
deriving DecidableEq

/-- The `county|state` key used by the reverse index in `load_geography`. -/
def geoKey (r : GeoRow) : String := r.county ++ "|" ++ r.state

/-- Appending to `county_to_area[key]` only when the area is not already
present (`if area not in county_to_area[key]`). -/
def dedupAppend (v : List String) (a : String) : List String :=
  if a ∈ v then v else v ++ [a]

/-- First-occurrence de-duplication: the order areas were first inserted. -/
def firstDedup (xs : List String) : List String := xs.foldl dedupAppend []

/-- The body of the `for row in reader` loop of `load_geography`, acting on
the pair (geography, county_to_area). -/
def stepGeo (acc : List (String × GeoData) × List (String × List String)) (r : GeoRow) :
    List (String × GeoData) × List (String × List String) :=
  let g := acc.1
  let g1 := if (lookupA g r.area).isSome then g
            else insertOrUpdate g r.area ⟨r.areaName, r.state, []⟩
  let d := (lookupA g1 r.area).getD ⟨r.areaName, r.state, []⟩
  let g2 := insertOrUpdate g1 r.area ⟨d.areaName, d.state, d.counties ++ [r.county]⟩
  let v := (lookupA acc.2 (geoKey r)).getD []
  let c2 := insertOrUpdate acc.2 (geoKey r) (dedupAppend v r.area)
  (g2, c2)

/-- `load_geography`: returns the geography mapping and the
county+state → area-codes reverse index. -/
def loadGeography (rows : List GeoRow) :
    List (String × GeoData) × List (String × List String) :=
  rows.foldl stepGeo ([], [])

/-- `load_occupations`: occupation code → title, last row wins. -/
def loadOccupations (rows : List OccRow) : List (String × String) :=
  rows.foldl (fun m r => insertOrUpdate m r.code r.title) []

/-- The `try` block of `load_wages`: all four levels must parse; each is
converted by `round(float(level) * HOURS_PER_YEAR)`. -/
def rowLevels (r : WageRow) : Option Levels :=
  match r.level1, r.level2, r.level3, r.level4 with
  | some a, some b, some c, some d =>
      some ⟨roundHalfEven (a * HOURS_PER_YEAR), roundHalfEven (b * HOURS_PER_YEAR),
            roundHalfEven (c * HOURS_PER_YEAR), roundHalfEven (d * HOURS_PER_YEAR)⟩
  | _, _, _, _ => none

/-- The body of the `for row in reader` loop of `load_wages`: on parse
failure `continue`, otherwise `wages[area][soc] = {...}` (defaultdict). -/
def stepWage (w : List (String × List (String × Levels))) (r : WageRow) :
    List (String × List (String × Levels)) :=
  match rowLevels r with
  | none => w
  | some lv => insertOrUpdate w r.area (insertOrUpdate ((lookupA w r.area).getD []) r.soc lv)

/-- `load_wages`: area → soc → levels. -/
def loadWages (rows : List WageRow) : List (String × List (String × Levels)) :=
  rows.foldl stepWage []

/-- Two-level lookup `wages[area][soc]`. -/
def lookup2 (w : List (String × List (String × Levels))) (area soc : String) : Option Levels :=
  (lookupA w area).bind fun m => lookupA m soc

/-- The `soc_counts` accumulation of `get_common_occupations`:
`soc_counts[soc] += 1` over every soc of every area, a `defaultdict(int)`. -/
def socCounts (w : List (String × List (String × Levels))) : List (String × Nat) :=
  w.foldl (fun c e => e.2.foldl (fun c1 p => insertOrUpdate c1 p.1 ((lookupA c1 p.1).getD 0 + 1)) c) []

/-- Stable insertion of one element into a count-descending list: the new
element, which stands earlier in the original order, goes in front of every
element of equal count. -/
def insDesc (x : String × Nat) : List (String × Nat) → List (String × Nat)
  | [] => [x]
  | y :: ys => if x.2 < y.2 then y :: insDesc x ys else x :: y :: ys

/-- Stable sort by descending count, modelling Python's stable
`sorted(soc_counts.items(), key=lambda x: -x[1])` (any two stable sorts
under the same key agree pointwise). -/
def sortDesc : List (String × Nat) → List (String × Nat)
  | [] => []
  | x :: xs => insDesc x (sortDesc xs)

/-- `get_common_occupations`: codes of the first 100 entries of the sorted
count list. -/
def getCommonOccupations (w : List (String × List (String × Levels))) : List String :=
  ((sortDesc (socCounts w)).take 100).map Prod.fst

/-- A wage file with 101 distinct occupation codes in one area: one more
code than the selector's cutoff, to exercise the top-100 boundary. -/
def manySocRows : List WageRow :=
  (List.range 101).map fun n => ⟨"X", "S" ++ toString n, some 1, some 1, some 1, some 1⟩

/-- The count `soc_counts[c]` (0 when the code is absent). -/
def countOf (cnts : List (String × Nat)) (c : String) : Nat := (lookupA cnts c).getD 0

/-- Position of a key in the count dict: the order codes were first
encountered during iteration. -/
def idxOfKey : List (String × Nat) → String → Nat
  | [], _ => 0
  | p :: l, c => if p.1 = c then 0 else idxOfKey l c + 1

/-- The ordering a stable descending-by-count sort enforces: strictly
larger count first, ties resolved by the relation `T`. -/
def tieOrder (T : (String × Nat) → (String × Nat) → Prop) (a b : String × Nat) : Prop :=
  b.2 < a.2 ∨ (a.2 = b.2 ∧ T a b)

/-- One iteration of the inner loop of `create_wage_lookup_file`:
`if soc in selected_socs: area_wages[soc] = [l1, l2, l3, l4]`. -/
def stepAW (sel : List String) (m : List (String × List ℤ)) (p : String × Levels) :
    List (String × List ℤ) :=
  if p.1 ∈ sel then insertOrUpdate m p.1 [p.2.l1, p.2.l2, p.2.l3, p.2.l4] else m

/-- The inner loop of `create_wage_lookup_file`: keep the socs of the
selected set, storing `[l1, l2, l3, l4]` (`area_wages` is a fresh dict). -/
def areaWages (sd : List (String × Levels)) (sel : List String) : List (String × List ℤ) :=
  sd.foldl (stepAW sel) []

/-- One iteration of the outer loop of `create_wage_lookup_file`:
`if area_wages: output[area] = area_wages`. -/
def stepWL (sel : List String) (o : List (String × List (String × List ℤ)))
    (e : String × List (String × Levels)) : List (String × List (String × List ℤ)) :=
  if areaWages e.2 sel = [] then o else insertOrUpdate o e.1 (areaWages e.2 sel)

/-- `create_wage_lookup_file`: areas whose filtered soc map is nonempty.
The `geography` and `occupations` parameters of the Python function are
unused in its body and omitted here. -/
def createWageLookup (w : List (String × List (String × Levels))) (sel : List String) :
    List (String × List (String × List ℤ)) :=
  w.foldl (stepWL sel) []

/-- The `"county, state"` key of `create_county_search_index`. -/
def countyKey (county state : String) : String := county ++ ", " ++ state

/-- `create_county_search_index`: key `"county, state"` →
`{area, areaName, state, county}`, later assignments overwriting earlier. -/
def createCountySearchIndex (geo : List (String × GeoData)) : List (String × CountyEntry) :=
  geo.foldl (fun idx e =>
    e.2.counties.foldl (fun idx1 county =>
      insertOrUpdate idx1 (countyKey county e.2.state) ⟨e.1, e.2.areaName, e.2.state, county⟩) idx) []

/-- One dict assignment of `create_county_search_index`, acting on a
flattened (area, data, county) triple of the double loop. -/
def stepCI (idx : List (String × CountyEntry)) (t : String × GeoData × String) :
    List (String × CountyEntry) :=
  insertOrUpdate idx (countyKey t.2.2 t.2.1.state) ⟨t.1, t.2.1.areaName, t.2.1.state, t.2.2⟩

/-- The (area, data, county) triples the double loop of
`create_county_search_index` visits, in visiting order. -/
def flattenGeo : List (String × GeoData) → List (String × GeoData × String)
  | [] => []
  | e :: l => (e.2.counties.map fun c => (e.1, e.2, c)) ++ flattenGeo l

/-- The `occ_list` comprehension of `main`: selected codes present in the
title mapping, paired with their stored title, in selector order. -/
def occList (sel : List String) (occ : List (String × String)) : List (String × String) :=
  sel.filterMap fun s => (lookupA occ s).map fun t => (s, t)

/-- JSON string quoting as `json.dump` performs it on the plain (quote- and
backslash-free) area and soc code keys of `wages.json`. -/
def quoteStr (s : String) : String := "\"" ++ s ++ "\""

/-- Serialization of one `[l1,l2,l3,l4]` array, compact separators. -/
def serLevels (lv : List ℤ) : String :=
  "[" ++ String.intercalate "," (lv.map toString) ++ "]"

/-- Serialization of one per-area soc map, compact separators. -/
def serSocMap (m : List (String × List ℤ)) : String :=
  "\x7b" ++ String.intercalate "," (m.map fun p => quoteStr p.1 ++ ":" ++ serLevels p.2) ++ "\x7d"

/-- `json.dump(wage_lookup, f, separators=(',', ':'))`: the byte content of
`wages.json`. -/
def serializeWages (o : List (String × List (String × List ℤ))) : String :=
  "\x7b" ++ String.intercalate "," (o.map fun e => quoteStr e.1 ++ ":" ++ serSocMap e.2) ++ "\x7d"

/-- The whole wage pipeline of `main` up to the bytes of `wages.json`. -/
def wagesJsonBytes (rows : List WageRow) : String :=
  serializeWages (createWageLookup (loadWages rows) (getCommonOccupations (loadWages rows)))

/-- An association list with pairwise-distinct keys (every Python dict). -/
def keysNodup {α β : Type} (l : List (α × β)) : Prop := (keysOf l).Nodup

theorem lookupA_insertOrUpdate_self {α β : Type} [DecidableEq α] (l : List (α × β)) (k : α) (v : β) :
    lookupA (insertOrUpdate l k v) k = some v := by
  induction l with
  | nil => simp [insertOrUpdate, lookupA]
  | cons p t ih =>
      by_cases h : p.1 = k
      · simp [insertOrUpdate, lookupA, h]
      · simpa [insertOrUpdate, lookupA, h] using ih

theorem lookupA_insertOrUpdate_ne {α β : Type} [DecidableEq α] (l : List (α × β)) (k a : α) (v : β)
    (h : k ≠ a) : lookupA (insertOrUpdate l k v) a = lookupA l a := by
  induction l with
  | nil => simp [insertOrUpdate, lookupA, h]
  | cons p t ih =>
      by_cases hp : p.1 = k
      · simp [insertOrUpdate, lookupA, hp, h]
      · by_cases ha : p.1 = a
        · simp [insertOrUpdate, lookupA, hp, ha, Ne.symm h]
        · simpa [insertOrUpdate, lookupA, hp, ha] using ih

theorem keysOf_insertOrUpdate {α β : Type} [DecidableEq α] (l : List (α × β)) (k : α) (v : β) :
    keysOf (insertOrUpdate l k v) = if k ∈ keysOf l then keysOf l else keysOf l ++ [k] := by
  induction l with
  | nil => simp [insertOrUpdate, keysOf]
  | cons p t ih =>
      by_cases h : p.1 = k
      · simp [insertOrUpdate, keysOf, h]
      · have hne : ¬ k = p.1 := fun hh => h hh.symm
        by_cases hk : k ∈ keysOf t
        · simp only [insertOrUpdate, if_neg h, keysOf, List.map_cons] at ih ⊢
          rw [ih]
          simp [keysOf] at hk
          simp [hk, hne]
        · simp only [insertOrUpdate, if_neg h, keysOf, List.map_cons] at ih ⊢
          rw [ih]
          simp [keysOf] at hk
          simp [hk, hne]

theorem keysNodup_insertOrUpdate {α β : Type} [DecidableEq α] (l : List (α × β)) (k : α) (v : β)
    (h : keysNodup l) : keysNodup (insertOrUpdate l k v) := by
  unfold keysNodup at h ⊢
  rw [keysOf_insertOrUpdate]
  by_cases hk : k ∈ keysOf l
  · simpa [hk] using h
  · simpa [hk, List.nodup_append] using h

theorem mem_insertOrUpdate {α β : Type} [DecidableEq α] {l : List (α × β)} {k : α} {v : β}
    {p : α × β} (h : p ∈ insertOrUpdate l k v) : p ∈ l ∨ p = (k, v) := by
  induction l with
  | nil => simpa [insertOrUpdate] using h
  | cons q t ih =>
      by_cases hq : q.1 = k
      · simp [insertOrUpdate, hq] at h
        rcases h with h | h
        · right
          rw [h, ← hq]
        · left
          exact List.mem_cons_of_mem q h
      · simp [insertOrUpdate, hq] at h
        rcases h with h | h
        · left
          simp [h]
        · rcases ih h with h1 | h1
          · exact Or.inl (List.mem_cons_of_mem q h1)
          · exact Or.inr h1

theorem lookupA_eq_some_of_mem {α β : Type} [DecidableEq α] {l : List (α × β)} {p : α × β}
    (hnd : keysNodup l) (h : p ∈ l) : lookupA l p.1 = some p.2 := by
  induction l with
  | nil => simp at h
  | cons q t ih =>
      have hnd2 : q.1 ∉ keysOf t ∧ keysNodup t := by
        unfold keysNodup at hnd
        have he : keysOf (q :: t) = q.1 :: keysOf t := rfl
        rw [he] at hnd
        exact List.nodup_cons.mp hnd
      rcases List.mem_cons.mp h with h1 | h1
      · simp [h1, lookupA]
      · have hne : q.1 ≠ p.1 := by
          intro hq
          apply hnd2.1
          rw [hq]
          exact List.mem_map_of_mem Prod.fst h1
        simp only [lookupA, if_neg hne]
        exact ih hnd2.2 h1

theorem lookupA_mem {α β : Type} [DecidableEq α] {l : List (α × β)} {a : α} {v : β}
    (h : lookupA l a = some v) : (a, v) ∈ l := by
  induction l with
  | nil => simp [lookupA] at h
  | cons q t ih =>
      by_cases hq : q.1 = a
      · simp [lookupA, hq] at h
        have he : (a, v) = q := by rw [← hq, ← h]
        rw [he]
        exact List.mem_cons_self q t
      · simp [lookupA, hq] at h
        exact List.mem_cons_of_mem q (ih h)

theorem lookupA_isSome_iff {α β : Type} [DecidableEq α] (l : List (α × β)) (a : α) :
    (lookupA l a).isSome ↔ a ∈ keysOf l := by
  induction l with
  | nil => simp [lookupA, keysOf]
  | cons q t ih =>
      by_cases hq : q.1 = a
      · simp [lookupA, hq, keysOf]
      · have : ¬ a = q.1 := fun hh => hq hh.symm
        simpa [lookupA, hq, keysOf, this] using ih

/-- The surviving value per (area, soc): the last fully parsed matching row
wins, rows that fail to parse leave the table untouched. -/
def lastStored : List WageRow → String → String → Option Levels
  | [], _, _ => none
  | r :: rs, area, soc =>
      match lastStored rs area soc with
      | some lv => some lv
      | none => if r.area = area ∧ r.soc = soc then rowLevels r else none

theorem lookup2_stepWage (w : List (String × List (String × Levels))) (r : WageRow)
    (area soc : String) :
    lookup2 (stepWage w r) area soc =
      match rowLevels r with
      | none => lookup2 w area soc
      | some lv => if r.area = area ∧ r.soc = soc then some lv else lookup2 w area soc := by
  cases hrl : rowLevels r with
  | none => simp [stepWage, hrl]
  | some lv =>
      by_cases harea : r.area = area
      · subst harea
        simp only [stepWage, hrl]
        by_cases hsoc : r.soc = soc
        · subst hsoc
          simp [lookup2, lookupA_insertOrUpdate_self]
        · simp only [lookup2, lookupA_insertOrUpdate_self, Option.bind_some,
            lookupA_insertOrUpdate_ne _ _ _ _ hsoc]
          cases hw : lookupA w r.area with
          | none => simp [hw, lookupA]
          | some m => simp [hw, hsoc, lookupA_insertOrUpdate_ne _ _ _ _ hsoc]
      · simp only [stepWage, hrl, lookup2,
          lookupA_insertOrUpdate_ne _ _ _ _ harea]
        simp [harea, lookup2]

theorem lookup2_foldl_stepWage (rows : List WageRow)
    (w : List (String × List (String × Levels))) (area soc : String) :
    lookup2 (rows.foldl stepWage w) area soc =
      match lastStored rows area soc with
      | some lv => some lv
      | none => lookup2 w area soc := by
  induction rows generalizing w with
  | nil => simp [lastStored]
  | cons r rs ih =>
      rw [List.foldl_cons, ih]
      cases hls : lastStored rs area soc with
      | some lv => simp [lastStored, hls]
      | none =>
          simp only [lastStored, hls]
          rw [lookup2_stepWage]
          cases hrl : rowLevels r with
          | none =>
              by_cases hc : r.area = area ∧ r.soc = soc
              · simp [hc, hrl]
              · simp [hc, hrl]
          | some lv =>
              by_cases hc : r.area = area ∧ r.soc = soc
              · simp [hc, hrl]
              · simp [hc, hrl]

/-- The stored table is fully described by `lastStored`. -/
theorem lookup2_loadWages (rows : List WageRow) (area soc : String) :
    lookup2 (loadWages rows) area soc = lastStored rows area soc := by
  rw [loadWages, lookup2_foldl_stepWage]
  cases lastStored rows area soc <;> simp [lookup2, lookupA]

theorem lastStored_eq_some (rows : List WageRow) (area soc : String) (lv : Levels)
    (h : lastStored rows area soc = some lv) :
    ∃ r ∈ rows, r.area = area ∧ r.soc = soc ∧ rowLevels r = some lv := by
  induction rows with
  | nil => simp [lastStored] at h
  | cons r rs ih =>
      simp only [lastStored] at h
      cases hls : lastStored rs area soc with
      | some lv1 =>
          rw [hls] at h
          simp at h
          rcases ih (hls.trans (by rw [h])) with ⟨r1, hr1, ha, hs, hl⟩
          exact ⟨r1, List.mem_cons_of_mem r hr1, ha, hs, hl⟩
      | none =>
          rw [hls] at h
          by_cases hc : r.area = area ∧ r.soc = soc
          · rw [if_pos hc] at h
            exact ⟨r, List.mem_cons_self r rs, hc.1, hc.2, h⟩
          · rw [if_neg hc] at h
            simp at h

theorem lastStored_isSome_of_mem (rows : List WageRow) (r : WageRow)
    (hmem : r ∈ rows) (hp : (rowLevels r).isSome) :
    (lastStored rows r.area r.soc).isSome := by
  induction rows with
  | nil => simp at hmem
  | cons q rs ih =>
      simp only [lastStored]
      cases hls : lastStored rs r.area r.soc with
      | some lv => simp
      | none =>
          rcases List.mem_cons.mp hmem with h1 | h1
          · subst h1
            simp
            exact hp
          · have := ih h1
            rw [hls] at this
            simp at this

/-- Rows whose levels do not all parse leave no trace at all: the loader
output over any row list equals the output over the fully-parsed rows. -/
theorem loadWages_filter (rows : List WageRow) :
    loadWages rows = loadWages (rows.filter fun r => (rowLevels r).isSome) := by
  unfold loadWages
  generalize hw : ([] : List (String × List (String × Levels))) = w
  clear hw
  induction rows generalizing w with
  | nil => simp
  | cons r rs ih =>
      cases hrl : rowLevels r with
      | none =>
          have hstep : stepWage w r = w := by simp [stepWage, hrl]
          simp [List.filter_cons, hrl, hstep, ih]
      | some lv => simp [List.filter_cons, hrl, ih]

theorem keysNodup_foldl_stepWage (rows : List WageRow)
    (w : List (String × List (String × Levels))) (h : keysNodup w) :
    keysNodup (rows.foldl stepWage w) := by
  induction rows generalizing w with
  | nil => simpa
  | cons r rs ih =>
      rw [List.foldl_cons]
      apply ih
      cases hrl : rowLevels r with
      | none => simpa [stepWage, hrl]
      | some lv =>
          simp only [stepWage, hrl]
          exact keysNodup_insertOrUpdate _ _ _ h

theorem keysNodup_loadWages (rows : List WageRow) : keysNodup (loadWages rows) := by
  apply keysNodup_foldl_stepWage
  simp [keysNodup, keysOf]

theorem inner_keysNodup_foldl_stepWage (rows : List WageRow)
    (w : List (String × List (String × Levels))) (h : ∀ p ∈ w, keysNodup p.2) :
    ∀ p ∈ rows.foldl stepWage w, keysNodup p.2 := by
  induction rows generalizing w with
  | nil =>
      rw [List.foldl_nil]
      exact h
  | cons r rs ih =>
      rw [List.foldl_cons]
      apply ih
      intro p hp
      cases hrl : rowLevels r with
      | none =>
          rw [stepWage, hrl] at hp
          exact h p hp
      | some lv =>
          rw [stepWage, hrl] at hp
          rcases mem_insertOrUpdate hp with h1 | h1
          · exact h p h1
          · rw [h1]
            apply keysNodup_insertOrUpdate
            cases hlk : lookupA w r.area with
            | none => simp [keysNodup, keysOf]
            | some m =>
                simp only [hlk, Option.getD_some]
                exact h (r.area, m) (lookupA_mem hlk)

theorem inner_keysNodup_loadWages (rows : List WageRow) :
    ∀ p ∈ loadWages rows, keysNodup p.2 := by
  apply inner_keysNodup_foldl_stepWage
  simp

theorem rowLevels_eq_some {r : WageRow} {lv : Levels} (h : rowLevels r = some lv) :
    ∃ a b c d : ℚ, r.level1 = some a ∧ r.level2 = some b ∧ r.level3 = some c ∧
      r.level4 = some d ∧
      lv = ⟨roundHalfEven (a * HOURS_PER_YEAR), roundHalfEven (b * HOURS_PER_YEAR),
            roundHalfEven (c * HOURS_PER_YEAR), roundHalfEven (d * HOURS_PER_YEAR)⟩ := by
  cases h1 : r.level1 with
  | none => simp [rowLevels, h1] at h
  | some a =>
      cases h2 : r.level2 with
      | none => simp [rowLevels, h1, h2] at h
      | some b =>
          cases h3 : r.level3 with
          | none => simp [rowLevels, h1, h2, h3] at h
          | some c =>
              cases h4 : r.level4 with
              | none => simp [rowLevels, h1, h2, h3, h4] at h
              | some d =>
                  refine ⟨a, b, c, d, rfl, rfl, rfl, rfl, ?_⟩
                  rw [rowLevels, h1, h2, h3, h4] at h
                  exact (Option.some.injEq _ _ ▸ h).symm

theorem roundHalfEven_nonneg {q : ℚ} (h : 0 ≤ q) : 0 ≤ roundHalfEven q := by
  have hf : (0 : ℤ) ≤ ⌊q⌋ := Int.floor_nonneg.mpr h
  unfold roundHalfEven
  split_ifs <;> omega

theorem insertOrUpdate_ne_nil {α β : Type} [DecidableEq α] (l : List (α × β)) (k : α) (v : β) :
    insertOrUpdate l k v ≠ [] := by
  cases l with
  | nil => simp [insertOrUpdate]
  | cons p t =>
      unfold insertOrUpdate
      split <;> simp

theorem foldl_stepAW_eq_nil (sel : List String) (sd : List (String × Levels))
    (m : List (String × List ℤ)) :
    sd.foldl (stepAW sel) m = [] ↔ m = [] ∧ ∀ p ∈ sd, p.1 ∉ sel := by
  induction sd generalizing m with
  | nil => simp
  | cons p t ih =>
      rw [List.foldl_cons]
      by_cases hp : p.1 ∈ sel
      · have hne := insertOrUpdate_ne_nil m p.1 [p.2.l1, p.2.l2, p.2.l3, p.2.l4]
        simp only [stepAW, if_pos hp, ih]
        constructor
        · rintro ⟨h1, _⟩
          exact absurd h1 hne
        · rintro ⟨_, h2⟩
          exact absurd hp (h2 p (List.mem_cons_self p t))
      · simp only [stepAW, if_neg hp, ih]
        constructor
        · rintro ⟨h1, h2⟩
          refine ⟨h1, ?_⟩
          intro q hq
          rcases List.mem_cons.mp hq with h3 | h3
          · rw [h3]
            exact hp
          · exact h2 q h3
        · rintro ⟨h1, h2⟩
          exact ⟨h1, fun q hq => h2 q (List.mem_cons_of_mem p hq)⟩

theorem areaWages_eq_nil_iff (sel : List String) (sd : List (String × Levels)) :
    areaWages sd sel = [] ↔ ∀ p ∈ sd, p.1 ∉ sel := by
  rw [areaWages, foldl_stepAW_eq_nil]
  simp

theorem mem_foldl_stepAW (sel : List String) (sd : List (String × Levels))
    (m : List (String × List ℤ)) (q : String × List ℤ)
    (h : q ∈ sd.foldl (stepAW sel) m) :
    q ∈ m ∨ ∃ p ∈ sd, p.1 ∈ sel ∧ q = (p.1, [p.2.l1, p.2.l2, p.2.l3, p.2.l4]) := by
  induction sd generalizing m with
  | nil =>
      rw [List.foldl_nil] at h
      exact Or.inl h
  | cons p t ih =>
      rw [List.foldl_cons] at h
      rcases ih _ h with h1 | ⟨p1, hp1, hsel, hq⟩
      · by_cases hp : p.1 ∈ sel
        · rw [stepAW, if_pos hp] at h1
          rcases mem_insertOrUpdate h1 with h2 | h2
          · exact Or.inl h2
          · exact Or.inr ⟨p, List.mem_cons_self p t, hp, h2⟩
        · rw [stepAW, if_neg hp] at h1
          exact Or.inl h1
      · exact Or.inr ⟨p1, List.mem_cons_of_mem p hp1, hsel, hq⟩

theorem mem_areaWages (sel : List String) (sd : List (String × Levels)) (q : String × List ℤ)
    (h : q ∈ areaWages sd sel) :
    ∃ p ∈ sd, p.1 ∈ sel ∧ q = (p.1, [p.2.l1, p.2.l2, p.2.l3, p.2.l4]) := by
  rcases mem_foldl_stepAW sel sd [] q h with h1 | h1
  · simp at h1
  · exact h1

theorem lookupA_foldl_stepWL_notmem (sel : List String)
    (w : List (String × List (String × Levels))) (o : List (String × List (String × List ℤ)))
    (area : String) (h : area ∉ keysOf w) :
    lookupA (w.foldl (stepWL sel) o) area = lookupA o area := by
  induction w generalizing o with
  | nil => simp
  | cons e t ih =>
      have h1 : area ∉ keysOf t := by
        intro hc
        exact h (List.mem_cons_of_mem _ hc)
      have h2 : e.1 ≠ area := by
        intro hc
        apply h
        rw [← hc]
        exact List.mem_cons_self _ _
      rw [List.foldl_cons, ih _ h1]
      unfold stepWL
      split
      · rfl
      · exact lookupA_insertOrUpdate_ne _ _ _ _ h2

theorem lookupA_createWageLookup_aux (sel : List String)
    (w : List (String × List (String × Levels))) (o : List (String × List (String × List ℤ)))
    (area : String) (hnd : keysNodup w) :
    lookupA (w.foldl (stepWL sel) o) area =
      match lookupA w area with
      | none => lookupA o area
      | some sd => if areaWages sd sel = [] then lookupA o area else some (areaWages sd sel) := by
  induction w generalizing o with
  | nil => simp [lookupA]
  | cons e t ih =>
      have hnd2 : e.1 ∉ keysOf t ∧ keysNodup t := by
        unfold keysNodup at hnd
        have he : keysOf (e :: t) = e.1 :: keysOf t := rfl
        rw [he] at hnd
        exact List.nodup_cons.mp hnd
      rw [List.foldl_cons]
      by_cases harea : e.1 = area
      · subst harea
        rw [lookupA_foldl_stepWL_notmem sel t _ _ hnd2.1]
        have hl : lookupA (e :: t) e.1 = some e.2 := by simp [lookupA]
        rw [hl]
        show lookupA (stepWL sel o e) e.1 =
          if areaWages e.2 sel = [] then lookupA o e.1 else some (areaWages e.2 sel)
        unfold stepWL
        split_ifs with hnil
        · rfl
        · exact lookupA_insertOrUpdate_self o e.1 (areaWages e.2 sel)
      · rw [ih _ hnd2.2]
        have hl : lookupA (e :: t) area = lookupA t area := by
          simp [lookupA, harea]
        rw [hl]
        have hstep : lookupA (stepWL sel o e) area = lookupA o area := by
          unfold stepWL
          split
          · rfl
          · exact lookupA_insertOrUpdate_ne _ _ _ _ harea
        cases lookupA t area with
        | none => exact hstep
        | some sd =>
            simp only
            split
            · exact hstep
            · rfl

theorem lookupA_createWageLookup (sel : List String)
    (w : List (String × List (String × Levels))) (area : String) (hnd : keysNodup w) :
    lookupA (createWageLookup w sel) area =
      match lookupA w area with
      | none => none
      | some sd => if areaWages sd sel = [] then none else some (areaWages sd sel) := by
  rw [createWageLookup, lookupA_createWageLookup_aux sel w [] area hnd]
  cases lookupA w area with
  | none => rfl
  | some sd =>
      simp only
      split <;> rfl

theorem stepGeo_fst_lookup (g : List (String × GeoData)) (c : List (String × List String))
    (r : GeoRow) (a : String) :
    lookupA ((stepGeo (g, c) r).1) a =
      if r.area = a then
        match lookupA g a with
        | some d => some ⟨d.areaName, d.state, d.counties ++ [r.county]⟩
        | none => some ⟨r.areaName, r.state, [r.county]⟩
      else lookupA g a := by
  by_cases ha : r.area = a
  · subst ha
    cases hg : lookupA g r.area with
    | some d =>
        simp only [stepGeo, hg, Option.isSome_some, if_true, if_pos rfl, Option.getD_some]
        rw [lookupA_insertOrUpdate_self]
    | none =>
        have h1 : lookupA (insertOrUpdate g r.area (⟨r.areaName, r.state, []⟩ : GeoData)) r.area
            = some ⟨r.areaName, r.state, []⟩ := lookupA_insertOrUpdate_self _ _ _
        simp [stepGeo, hg, h1, lookupA_insertOrUpdate_self]
  · simp only [stepGeo, if_neg ha]
    rw [lookupA_insertOrUpdate_ne _ _ _ _ ha]
    split
    · rfl
    · exact lookupA_insertOrUpdate_ne _ _ _ _ ha

theorem stepGeo_snd_lookup (g : List (String × GeoData)) (c : List (String × List String))
    (r : GeoRow) (k : String) :
    lookupA ((stepGeo (g, c) r).2) k =
      if geoKey r = k then some (dedupAppend ((lookupA c (geoKey r)).getD []) r.area)
      else lookupA c k := by
  by_cases hk : geoKey r = k
  · subst hk
    simp [stepGeo, lookupA_insertOrUpdate_self]
  · simp only [stepGeo, if_neg hk]
    exact lookupA_insertOrUpdate_ne _ _ _ _ hk

theorem lookupA_foldl_stepGeo_fst (rows : List GeoRow) (g : List (String × GeoData))
    (c : List (String × List String)) (a : String) :
    lookupA ((rows.foldl stepGeo (g, c)).1) a =
      match lookupA g a with
      | some d => some ⟨d.areaName, d.state,
          d.counties ++ (rows.filter fun r => decide (r.area = a)).map GeoRow.county⟩
      | none =>
          match rows.find? (fun r => decide (r.area = a)) with
          | some r0 => some ⟨r0.areaName, r0.state,
              (rows.filter fun r => decide (r.area = a)).map GeoRow.county⟩
          | none => none := by
  induction rows generalizing g c with
  | nil =>
      cases hg : lookupA g a <;> simp [hg]
  | cons r rs ih =>
      rw [List.foldl_cons]
      have hpair : stepGeo (g, c) r = ((stepGeo (g, c) r).1, (stepGeo (g, c) r).2) := rfl
      rw [hpair, ih]
      by_cases hra : r.area = a
      · rw [stepGeo_fst_lookup, if_pos hra]
        cases hg : lookupA g a with
        | some d => simp [hg, hra, List.filter_cons]
        | none => simp [hg, hra, List.filter_cons, List.find?_cons]
      · rw [stepGeo_fst_lookup, if_neg hra]
        cases hg : lookupA g a with
        | some d => simp [hg, hra, List.filter_cons]
        | none => simp [hg, hra, List.filter_cons, List.find?_cons]

theorem lookupA_foldl_stepGeo_snd (rows : List GeoRow) (g : List (String × GeoData))
    (c : List (String × List String)) (k : String) :
    lookupA ((rows.foldl stepGeo (g, c)).2) k =
      match lookupA c k with
      | some v => some (((rows.filter fun r => decide (geoKey r = k)).map GeoRow.area).foldl
          dedupAppend v)
      | none =>
          if (rows.filter fun r => decide (geoKey r = k)) = [] then none
          else some (((rows.filter fun r => decide (geoKey r = k)).map GeoRow.area).foldl
              dedupAppend []) := by
  induction rows generalizing g c with
  | nil =>
      cases hc : lookupA c k <;> simp [hc]
  | cons r rs ih =>
      rw [List.foldl_cons]
      have hpair : stepGeo (g, c) r = ((stepGeo (g, c) r).1, (stepGeo (g, c) r).2) := rfl
      rw [hpair, ih]
      by_cases hrk : geoKey r = k
      · rw [stepGeo_snd_lookup, if_pos hrk]
        cases hc : lookupA c k with
        | some v => simp [hc, hrk, List.filter_cons]
        | none => simp [hc, hrk, List.filter_cons, dedupAppend]
      · rw [stepGeo_snd_lookup, if_neg hrk]
        cases hc : lookupA c k with
        | some v => simp [hc, hrk, List.filter_cons]
        | none => simp [hc, hrk, List.filter_cons]

theorem nodup_foldl_dedupAppend (xs : List String) (v : List String) (h : v.Nodup) :
    (xs.foldl dedupAppend v).Nodup := by
  induction xs generalizing v with
  | nil => simpa
  | cons x t ih =>
      rw [List.foldl_cons]
      apply ih
      unfold dedupAppend
      split
      · exact h
      · rename_i hx
        simp [List.nodup_append, h, hx]

theorem foldl_dedupAppend_suffix (xs : List String) (v : List String) :
    ∃ t, xs.foldl dedupAppend v = v ++ t ∧ t.Sublist xs := by
  induction xs generalizing v with
  | nil => exact ⟨[], by simp, by simp⟩
  | cons x t ih =>
      rw [List.foldl_cons]
      by_cases hx : x ∈ v
      · have hd : dedupAppend v x = v := by simp [dedupAppend, hx]
        rw [hd]
        rcases ih v with ⟨u, hu, hs⟩
        exact ⟨u, hu, List.Sublist.cons x hs⟩
      · have hd : dedupAppend v x = v ++ [x] := by simp [dedupAppend, hx]
        rw [hd]
        rcases ih (v ++ [x]) with ⟨u, hu, hs⟩
        refine ⟨x :: u, ?_, List.Sublist.cons₂ x hs⟩
        rw [hu]
        simp

theorem firstDedup_nodup (xs : List String) : (firstDedup xs).Nodup :=
  nodup_foldl_dedupAppend xs [] (by simp)

theorem firstDedup_sublist (xs : List String) : (firstDedup xs).Sublist xs := by
  rcases foldl_dedupAppend_suffix xs [] with ⟨t, ht, hs⟩
  rw [firstDedup, ht]
  simpa using hs

theorem lookupA_foldl_insert {α β τ : Type} [DecidableEq α] (keyOf : τ → α) (valOf : τ → β)
    (f : List (α × β) → τ → List (α × β))
    (hf : ∀ m t, f m t = insertOrUpdate m (keyOf t) (valOf t))
    (xs : List τ) (init : List (α × β)) (a : α) :
    lookupA (xs.foldl f init) a =
      match xs.reverse.find? (fun t => decide (keyOf t = a)) with
      | some t => some (valOf t)
      | none => lookupA init a := by
  induction xs generalizing init with
  | nil => simp
  | cons x t ih =>
      rw [List.foldl_cons, hf, ih, List.reverse_cons, List.find?_append]
      cases hf : t.reverse.find? (fun t1 => decide (keyOf t1 = a)) with
      | some u => simp [hf]
      | none =>
          simp only [hf, Option.none_or]
          by_cases hk : keyOf x = a
          · rw [← hk]
            simp [List.find?, lookupA_insertOrUpdate_self]
          · simp [List.find?, hk, lookupA_insertOrUpdate_ne _ _ _ _ hk]

theorem createCountySearchIndex_eq_foldl (geo : List (String × GeoData)) :
    createCountySearchIndex geo = (flattenGeo geo).foldl stepCI [] := by
  rw [createCountySearchIndex]
  generalize ([] : List (String × CountyEntry)) = idx
  induction geo generalizing idx with
  | nil => rfl
  | cons e l ih =>
      rw [List.foldl_cons, flattenGeo, List.foldl_append, ih, List.foldl_map]
      rfl

theorem lookupA_countyIndex (geo : List (String × GeoData)) (key : String) :
    lookupA (createCountySearchIndex geo) key =
      match (flattenGeo geo).reverse.find?
          (fun t => decide (countyKey t.2.2 t.2.1.state = key)) with
      | some t => some ⟨t.1, t.2.1.areaName, t.2.1.state, t.2.2⟩
      | none => none := by
  have hkv : ∀ (m : List (String × CountyEntry)) (t : String × GeoData × String),
      stepCI m t = insertOrUpdate m (countyKey t.2.2 t.2.1.state)
        (⟨t.1, t.2.1.areaName, t.2.1.state, t.2.2⟩ : CountyEntry) := fun m t => rfl
  rw [createCountySearchIndex_eq_foldl,
    lookupA_foldl_insert (fun t => countyKey t.2.2 t.2.1.state)
      (fun t => (⟨t.1, t.2.1.areaName, t.2.1.state, t.2.2⟩ : CountyEntry)) stepCI
      hkv (flattenGeo geo) [] key]
  cases (flattenGeo geo).reverse.find? (fun t => decide (countyKey t.2.2 t.2.1.state = key)) <;>
    simp [lookupA]

theorem mem_flattenGeo {t : String × GeoData × String} {geo : List (String × GeoData)} :
    t ∈ flattenGeo geo ↔ ∃ e ∈ geo, ∃ c ∈ e.2.counties, t = (e.1, e.2, c) := by
  induction geo with
  | nil => simp [flattenGeo]
  | cons e l ih =>
      simp only [flattenGeo, List.mem_append, List.mem_map, ih, List.mem_cons]
      constructor
      · rintro (⟨c, hc, hti⟩ | ⟨e1, he1, c, hc, ht⟩)
        · exact ⟨e, Or.inl rfl, c, hc, hti.symm⟩
        · exact ⟨e1, Or.inr he1, c, hc, ht⟩
      · rintro ⟨e1, he1 | he1, c, hc, ht⟩
        · subst he1
          exact Or.inl ⟨c, hc, ht.symm⟩
        · exact Or.inr ⟨e1, he1, c, hc, ht⟩

theorem keysNodup_foldl_stepGeo (rows : List GeoRow) (g : List (String × GeoData))
    (c : List (String × List String)) (h : keysNodup g) :
    keysNodup ((rows.foldl stepGeo (g, c)).1) := by
  induction rows generalizing g c with
  | nil => simpa
  | cons r rs ih =>
      rw [List.foldl_cons]
      have hpair : stepGeo (g, c) r = ((stepGeo (g, c) r).1, (stepGeo (g, c) r).2) := rfl
      rw [hpair]
      apply ih
      have h1 : keysNodup (if (lookupA g r.area).isSome then g
          else insertOrUpdate g r.area ⟨r.areaName, r.state, []⟩) := by
        split
        · exact h
        · exact keysNodup_insertOrUpdate _ _ _ h
      exact keysNodup_insertOrUpdate _ _ _ h1

theorem keysNodup_loadGeography (rows : List GeoRow) : keysNodup (loadGeography rows).1 :=
  keysNodup_foldl_stepGeo rows [] [] (by simp [keysNodup, keysOf])

theorem countyIndex_provenance (geoRows : List GeoRow) (key : String) (e : CountyEntry)
    (h : lookupA (createCountySearchIndex (loadGeography geoRows).1) key = some e) :
    ∃ d : GeoData, lookupA (loadGeography geoRows).1 e.area = some d ∧
      e.areaName = d.areaName ∧ e.state = d.state ∧ e.county ∈ d.counties ∧
      key = countyKey e.county e.state := by
  rw [lookupA_countyIndex] at h
  cases hf : (flattenGeo (loadGeography geoRows).1).reverse.find?
      (fun t => decide (countyKey t.2.2 t.2.1.state = key)) with
  | none =>
      rw [hf] at h
      simp at h
  | some t =>
      rw [hf] at h
      have he : (⟨t.1, t.2.1.areaName, t.2.1.state, t.2.2⟩ : CountyEntry) = e :=
        Option.some.inj h
      have hkey : countyKey t.2.2 t.2.1.state = key := by
        have := List.find?_some hf
        exact of_decide_eq_true this
      have hmem : t ∈ flattenGeo (loadGeography geoRows).1 :=
        List.mem_reverse.mp (List.mem_of_find?_eq_some hf)
      rcases mem_flattenGeo.mp hmem with ⟨e0, he0, c, hc, ht⟩
      refine ⟨e0.2, ?_, ?_, ?_, ?_, ?_⟩
      · have : lookupA (loadGeography geoRows).1 e0.1 = some e0.2 :=
          lookupA_eq_some_of_mem (keysNodup_loadGeography geoRows) he0
        have harea : e.area = e0.1 := by
          rw [← he, ht]
        rw [harea]
        exact this
      · rw [← he, ht]
      · rw [← he, ht]
      · rw [← he, ht]
        simpa [ht] using hc
      · rw [← hkey, ← he, ht]

/-- C5: every county-index key has the form "county, state" built from an
area of the geography mapping whose record lists that county, the entry's
area code resolves in the geography mapping, and the value surviving at a
key is the one written by the last (area, county) pair visited that
produces it (later areas overwrite earlier ones). -/
theorem c5_county_index_keys :
    ∀ geoRows : List GeoRow,
      (∀ key e, lookupA (createCountySearchIndex (loadGeography geoRows).1) key = some e →
        ∃ d, lookupA (loadGeography geoRows).1 e.area = some d ∧
          e.county ∈ d.counties ∧ e.state = d.state ∧ key = countyKey e.county e.state) ∧
      (∀ key, lookupA (createCountySearchIndex (loadGeography geoRows).1) key =
        match (flattenGeo (loadGeography geoRows).1).reverse.find?
            (fun t => decide (countyKey t.2.2 t.2.1.state = key)) with
        | some t => some ⟨t.1, t.2.1.areaName, t.2.1.state, t.2.2⟩
        | none => none) := by
  intro geoRows
  constructor
  · intro key e h
    rcases countyIndex_provenance geoRows key e h with ⟨d, hd, _hn, hs, hc, hk⟩
    exact ⟨d, hd, hc, hs, hk⟩
  · intro key
    exact lookupA_countyIndex _ key

/-- C5 witness: a single-row geography file. -/
theorem c5_county_index_keys_witness :
    ∃ d, lookupA (loadGeography [⟨"41940", "SJ", "CA", "SCC"⟩]).1 "41940" = some d ∧
      "SCC" ∈ d.counties ∧ "CA" = d.state ∧ "SCC, CA" = countyKey "SCC" "CA" :=
  (c5_county_index_keys [⟨"41940", "SJ", "CA", "SCC"⟩]).1 "SCC, CA"
    ⟨"41940", "SJ", "CA", "SCC"⟩ (by decide)

/-- C10: every county-index entry is consistent with the geography mapping
under its area field: areaName and state agree with the area's record and
the county is one of that record's counties. -/
theorem c10_county_entry_consistency :
    ∀ (geoRows : List GeoRow) (key : String) (e : CountyEntry),
      lookupA (createCountySearchIndex (loadGeography geoRows).1) key = some e →
      ∃ d, lookupA (loadGeography geoRows).1 e.area = some d ∧
        e.areaName = d.areaName ∧ e.state = d.state ∧ e.county ∈ d.counties := by
  intro geoRows key e h
  rcases countyIndex_provenance geoRows key e h with ⟨d, hd, hn, hs, hc, _hk⟩
  exact ⟨d, hd, hn, hs, hc⟩

/-- C10 witness: a single-row geography file. -/
theorem c10_county_entry_consistency_witness :
    ∃ d, lookupA (loadGeography [⟨"1", "Metro", "TX", "Bexar"⟩]).1 "1" = some d ∧
      "Metro" = d.areaName ∧ "TX" = d.state ∧ "Bexar" ∈ d.counties :=
  c10_county_entry_consistency [⟨"1", "Metro", "TX", "Bexar"⟩] "Bexar, TX"
    ⟨"1", "Metro", "TX", "Bexar"⟩ (by decide)

/-- C6: the geography loader keeps the first-seen AreaName/StateAb per
area, collects every matching row's county in input order with duplicates
preserved, and the reverse index maps each county|state key to the
first-insertion-order de-duplicated list of area codes sharing it. -/
theorem c6_geography_loader :
    ∀ rows : List GeoRow,
      (∀ a, lookupA (loadGeography rows).1 a =
        match rows.find? (fun r => decide (r.area = a)) with
        | some r0 => some ⟨r0.areaName, r0.state,
            (rows.filter fun r => decide (r.area = a)).map GeoRow.county⟩
        | none => none) ∧
      (∀ k, lookupA (loadGeography rows).2 k =
        if (rows.filter fun r => decide (geoKey r = k)) = [] then none
        else some (firstDedup ((rows.filter fun r => decide (geoKey r = k)).map GeoRow.area))) ∧
      (∀ k v, lookupA (loadGeography rows).2 k = some v →
        v.Nodup ∧ v.Sublist ((rows.filter fun r => decide (geoKey r = k)).map GeoRow.area)) := by
  intro rows
  have h2 : ∀ k, lookupA (loadGeography rows).2 k =
      if (rows.filter fun r => decide (geoKey r = k)) = [] then none
      else some (firstDedup ((rows.filter fun r => decide (geoKey r = k)).map GeoRow.area)) := by
    intro k
    rw [loadGeography, lookupA_foldl_stepGeo_snd]
    rfl
  refine ⟨?_, h2, ?_⟩
  · intro a
    rw [loadGeography, lookupA_foldl_stepGeo_fst]
    rfl
  · intro k v h
    rw [h2] at h
    by_cases hf : (rows.filter fun r => decide (geoKey r = k)) = []
    · rw [if_pos hf] at h
      simp at h
    · rw [if_neg hf] at h
      have hv : firstDedup ((rows.filter fun r => decide (geoKey r = k)).map GeoRow.area) = v :=
        Option.some.inj h
      rw [← hv]
      exact ⟨firstDedup_nodup _, firstDedup_sublist _⟩

/-- C6 witness: duplicate area codes under one county|state key collapse
to the first-insertion order. -/
theorem c6_geography_loader_witness :
    (["1", "2"] : List String).Nodup ∧
    (["1", "2"] : List String).Sublist
      ((([⟨"1", "N", "CA", "X"⟩, ⟨"2", "M", "CA", "X"⟩, ⟨"1", "N", "CA", "X"⟩] :
          List GeoRow).filter fun r => decide (geoKey r = "X|CA")).map GeoRow.area) :=
  (c6_geography_loader
      [⟨"1", "N", "CA", "X"⟩, ⟨"2", "M", "CA", "X"⟩, ⟨"1", "N", "CA", "X"⟩]).2.2
    "X|CA" ["1", "2"] (by decide)

/-- C9: the wage loader and the serialization of `wages.json` are pure
functions of the input rows: identical inputs give identical tables and
byte-identical serialized output. -/
theorem c9_wage_pipeline_deterministic :
    ∀ (rows1 rows2 : List WageRow) (geo1 geo2 : List GeoRow) (occ1 occ2 : List OccRow),
      rows1 = rows2 → geo1 = geo2 → occ1 = occ2 →
      loadWages rows1 = loadWages rows2 ∧ wagesJsonBytes rows1 = wagesJsonBytes rows2 := by
  intro rows1 rows2 geo1 geo2 occ1 occ2 h hg ho
  subst h
  exact ⟨rfl, rfl⟩

/-- C9 witness: two runs over the same concrete one-row input. -/
theorem c9_wage_pipeline_deterministic_witness :
    loadWages [⟨"A", "S", some 1, some 1, some 1, some 1⟩] =
      loadWages [⟨"A", "S", some 1, some 1, some 1, some 1⟩] ∧
    wagesJsonBytes [⟨"A", "S", some 1, some 1, some 1, some 1⟩] =
      wagesJsonBytes [⟨"A", "S", some 1, some 1, some 1, some 1⟩] :=
  c9_wage_pipeline_deterministic
    [⟨"A", "S", some 1, some 1, some 1, some 1⟩] [⟨"A", "S", some 1, some 1, some 1, some 1⟩]
    [] [] [] [] rfl rfl rfl

theorem inner_count_keysNodup (sd : List (String × Levels)) (c1 : List (String × Nat))
    (h : keysNodup c1) :
    keysNodup (sd.foldl (fun c1 p => insertOrUpdate c1 p.1 ((lookupA c1 p.1).getD 0 + 1)) c1) := by
  induction sd generalizing c1 with
  | nil => simpa
  | cons p t ih =>
      rw [List.foldl_cons]
      exact ih _ (keysNodup_insertOrUpdate _ _ _ h)

theorem keysNodup_socCounts_aux (w : List (String × List (String × Levels)))
    (acc : List (String × Nat)) (h : keysNodup acc) :
    keysNodup (w.foldl
      (fun c e => e.2.foldl (fun c1 p => insertOrUpdate c1 p.1 ((lookupA c1 p.1).getD 0 + 1)) c)
      acc) := by
  induction w generalizing acc with
  | nil => simpa
  | cons e t ih =>
      rw [List.foldl_cons]
      exact ih _ (inner_count_keysNodup e.2 acc h)

theorem keysNodup_socCounts (w : List (String × List (String × Levels))) :
    keysNodup (socCounts w) := by
  unfold socCounts
  exact keysNodup_socCounts_aux w [] (by simp [keysNodup, keysOf])

theorem insDesc_perm (x : String × Nat) (l : List (String × Nat)) :
    (insDesc x l).Perm (x :: l) := by
  induction l with
  | nil => simp [insDesc]
  | cons y ys ih =>
      unfold insDesc
      split
      · exact (ih.cons y).trans (List.Perm.swap x y ys)
      · exact List.Perm.refl _

theorem sortDesc_perm (l : List (String × Nat)) : (sortDesc l).Perm l := by
  induction l with
  | nil => simp [sortDesc]
  | cons x xs ih =>
      unfold sortDesc
      exact (insDesc_perm x (sortDesc xs)).trans (ih.cons x)

theorem getCommonOccupations_nodup (w : List (String × List (String × Levels))) :
    (getCommonOccupations w).Nodup := by
  have hnd : keysNodup (socCounts w) := keysNodup_socCounts w
  have hperm : (keysOf (sortDesc (socCounts w))).Perm (keysOf (socCounts w)) :=
    (sortDesc_perm _).map Prod.fst
  have hnd2 : (keysOf (sortDesc (socCounts w))).Nodup := hperm.nodup_iff.mpr hnd
  rw [getCommonOccupations]
  have he : ((sortDesc (socCounts w)).take 100).map Prod.fst =
      (keysOf (sortDesc (socCounts w))).take 100 := by
    rw [keysOf, List.map_take]
  rw [he]
  exact (List.take_sublist _ _).nodup hnd2

theorem occList_map_fst (sel : List String) (occ : List (String × String)) :
    (occList sel occ).map Prod.fst = sel.filter fun s => (lookupA occ s).isSome := by
  induction sel with
  | nil => rfl
  | cons s t ih =>
      unfold occList at ih ⊢
      rw [List.filterMap_cons, List.filter_cons]
      cases ho : lookupA occ s with
      | none => simp [ho, ih]
      | some v => simp [ho, ih]

theorem mem_occList (sel : List String) (occ : List (String × String)) (p : String × String)
    (h : p ∈ occList sel occ) : p.1 ∈ sel ∧ lookupA occ p.1 = some p.2 := by
  unfold occList at h
  rcases List.mem_filterMap.mp h with ⟨s, hs, hmap⟩
  cases ho : lookupA occ s with
  | none =>
      rw [ho] at hmap
      simp at hmap
  | some v =>
      rw [ho] at hmap
      have hp : (s, v) = p := by simpa using hmap
      rw [← hp]
      exact ⟨hs, ho⟩

theorem lookupA_loadOccupations (rows : List OccRow) (c : String) :
    lookupA (loadOccupations rows) c =
      match rows.reverse.find? (fun r => decide (r.code = c)) with
      | some r => some r.title
      | none => none := by
  rw [loadOccupations,
    lookupA_foldl_insert OccRow.code OccRow.title
      (fun m r => insertOrUpdate m r.code r.title) (fun m r => rfl) rows [] c]
  cases rows.reverse.find? (fun r => decide (r.code = c)) <;> simp [lookupA]

theorem countOf_insertOrUpdate_inc (c1 : List (String × Nat)) (k : String) (c : String) :
    countOf (insertOrUpdate c1 k ((lookupA c1 k).getD 0 + 1)) c =
      countOf c1 c + (if k = c then 1 else 0) := by
  by_cases hk : k = c
  · subst hk
    unfold countOf
    rw [lookupA_insertOrUpdate_self]
    simp
  · unfold countOf
    rw [lookupA_insertOrUpdate_ne _ _ _ _ hk]
    simp [hk]

theorem countOf_inner_fold (sd : List (String × Levels)) :
    ∀ (c1 : List (String × Nat)) (c : String), keysNodup sd →
      countOf (sd.foldl (fun c1 p => insertOrUpdate c1 p.1 ((lookupA c1 p.1).getD 0 + 1)) c1) c =
        countOf c1 c + (if (lookupA sd c).isSome then 1 else 0) := by
  induction sd with
  | nil =>
      intro c1 c _
      simp [lookupA]
  | cons p t ih =>
      intro c1 c hnd
      have hnd2 : p.1 ∉ keysOf t ∧ keysNodup t := by
        unfold keysNodup at hnd
        have he : keysOf (p :: t) = p.1 :: keysOf t := rfl
        rw [he] at hnd
        exact List.nodup_cons.mp hnd
      rw [List.foldl_cons, ih _ c hnd2.2, countOf_insertOrUpdate_inc]
      by_cases hc : p.1 = c
      · subst hc
        have ht : ¬ (lookupA t p.1).isSome = true := by
          rw [lookupA_isSome_iff]
          exact hnd2.1
        simp [lookupA, ht]
      · simp [lookupA, hc]

theorem countOf_socCounts_aux (w : List (String × List (String × Levels))) :
    ∀ (acc : List (String × Nat)) (c : String), (∀ p ∈ w, keysNodup p.2) →
      countOf (w.foldl
        (fun c e => e.2.foldl (fun c1 p => insertOrUpdate c1 p.1 ((lookupA c1 p.1).getD 0 + 1)) c)
        acc) c =
        countOf acc c + w.countP (fun e => (lookupA e.2 c).isSome) := by
  induction w with
  | nil =>
      intro acc c _
      simp
  | cons e t ih =>
      intro acc c hin
      rw [List.foldl_cons, ih _ c (fun p hp => hin p (List.mem_cons_of_mem _ hp)),
        countOf_inner_fold e.2 acc c (hin e (List.mem_cons_self _ _)), List.countP_cons]
      by_cases hs : (lookupA e.2 c).isSome
      · simp [hs]
        omega
      · simp [hs]

theorem countOf_socCounts (rows : List WageRow) (c : String) :
    countOf (socCounts (loadWages rows)) c =
      (loadWages rows).countP fun e => (lookupA e.2 c).isSome := by
  unfold socCounts
  rw [countOf_socCounts_aux _ [] c (inner_keysNodup_loadWages rows)]
  simp [countOf, lookupA]

theorem insDesc_pairwise (T : (String × Nat) → (String × Nat) → Prop) (x : String × Nat) :
    ∀ l : List (String × Nat), l.Pairwise (tieOrder T) → (∀ y ∈ l, T x y) →
      (insDesc x l).Pairwise (tieOrder T) := by
  intro l
  induction l with
  | nil =>
      intro _ _
      simp [insDesc]
  | cons y ys ih =>
      intro hl hx
      unfold insDesc
      split
      · rename_i hlt
        rw [List.pairwise_cons] at hl ⊢
        obtain ⟨hy, hys⟩ := hl
        constructor
        · intro z hz
          have hz2 : z ∈ x :: ys := (insDesc_perm x ys).mem_iff.mp hz
          rcases List.mem_cons.mp hz2 with h | h
          · rw [h]
            exact Or.inl hlt
          · exact hy z h
        · exact ih hys fun y1 hy1 => hx y1 (List.mem_cons_of_mem _ hy1)
      · rename_i hge
        rw [List.pairwise_cons]
        constructor
        · intro z hz
          rcases List.mem_cons.mp hz with h | h
          · subst h
            rcases Nat.lt_or_ge z.2 x.2 with h1 | h1
            · exact Or.inl h1
            · have heq : x.2 = z.2 := by omega
              exact Or.inr ⟨heq, hx z (List.mem_cons_self _ _)⟩
          · have hyz : tieOrder T y z := (List.pairwise_cons.mp hl).1 z h
            have hy2 : y.2 ≤ x.2 := Nat.le_of_not_lt hge
            rcases hyz with h2 | h2
            · exact Or.inl (lt_of_lt_of_le h2 hy2)
            · rcases Nat.lt_or_ge z.2 x.2 with h3 | h3
              · exact Or.inl h3
              · have heq : x.2 = z.2 := by omega
                exact Or.inr ⟨heq, hx z (List.mem_cons_of_mem _ h)⟩
        · exact hl

theorem sortDesc_pairwise (T : (String × Nat) → (String × Nat) → Prop) :
    ∀ l : List (String × Nat), l.Pairwise T → (sortDesc l).Pairwise (tieOrder T) := by
  intro l
  induction l with
  | nil =>
      intro _
      simp [sortDesc]
  | cons x xs ih =>
      intro hl
      rw [List.pairwise_cons] at hl
      unfold sortDesc
      apply insDesc_pairwise T x (sortDesc xs) (ih hl.2)
      intro y hy
      exact hl.1 y ((sortDesc_perm xs).mem_iff.mp hy)

theorem pairwise_idxOfKey :
    ∀ l : List (String × Nat), keysNodup l →
      l.Pairwise fun a b => idxOfKey l a.1 < idxOfKey l b.1 := by
  intro l
  induction l with
  | nil =>
      intro _
      simp
  | cons p t ih =>
      intro hnd
      have hnd2 : p.1 ∉ keysOf t ∧ keysNodup t := by
        unfold keysNodup at hnd
        have he : keysOf (p :: t) = p.1 :: keysOf t := rfl
        rw [he] at hnd
        exact List.nodup_cons.mp hnd
      rw [List.pairwise_cons]
      constructor
      · intro q hq
        have hqp : ¬ p.1 = q.1 := by
          intro h
          exact hnd2.1 (h ▸ List.mem_map_of_mem Prod.fst hq)
        unfold idxOfKey
        rw [if_pos rfl, if_neg hqp]
        omega
      · apply List.Pairwise.imp_of_mem ?_ (ih hnd2.2)
        intro a b ha hb hab
        have ha1 : ¬ p.1 = a.1 := by
          intro h
          exact hnd2.1 (h ▸ List.mem_map_of_mem Prod.fst ha)
        have hb1 : ¬ p.1 = b.1 := by
          intro h
          exact hnd2.1 (h ▸ List.mem_map_of_mem Prod.fst hb)
        unfold idxOfKey
        rw [if_neg ha1, if_neg hb1]
        omega

theorem countOf_of_mem (cnts : List (String × Nat)) (p : String × Nat)
    (hnd : keysNodup cnts) (hp : p ∈ cnts) : countOf cnts p.1 = p.2 := by
  unfold countOf
  rw [lookupA_eq_some_of_mem hnd hp]
  rfl

/-- C3: the selector counts for each soc the number of stored areas
reporting it, returns at most 100 distinct codes drawn from the wage
table (all of the table's codes when at most 100 exist), lists them in
descending count order with ties broken by the order codes were first
encountered, and every selected code ranks strictly above every
unselected code of the table in that order — the output is the first 100
codes of the sorted sequence. -/
theorem c3_top_occupations :
    ∀ rows : List WageRow,
      (getCommonOccupations (loadWages rows)).length =
        min 100 (socCounts (loadWages rows)).length ∧
      (getCommonOccupations (loadWages rows)).Nodup ∧
      (∀ c : String, countOf (socCounts (loadWages rows)) c =
        (loadWages rows).countP fun e => (lookupA e.2 c).isSome) ∧
      (∀ c ∈ getCommonOccupations (loadWages rows), c ∈ keysOf (socCounts (loadWages rows))) ∧
      ((socCounts (loadWages rows)).length ≤ 100 →
        ∀ c ∈ keysOf (socCounts (loadWages rows)), c ∈ getCommonOccupations (loadWages rows)) ∧
      (∀ a b : String, a ∈ getCommonOccupations (loadWages rows) →
        b ∈ keysOf (socCounts (loadWages rows)) →
        b ∉ getCommonOccupations (loadWages rows) →
        countOf (socCounts (loadWages rows)) b < countOf (socCounts (loadWages rows)) a ∨
        (countOf (socCounts (loadWages rows)) a = countOf (socCounts (loadWages rows)) b ∧
          idxOfKey (socCounts (loadWages rows)) a < idxOfKey (socCounts (loadWages rows)) b)) ∧
      List.Pairwise (fun a b =>
          countOf (socCounts (loadWages rows)) b < countOf (socCounts (loadWages rows)) a ∨
          (countOf (socCounts (loadWages rows)) a = countOf (socCounts (loadWages rows)) b ∧
            idxOfKey (socCounts (loadWages rows)) a < idxOfKey (socCounts (loadWages rows)) b))
        (getCommonOccupations (loadWages rows)) := by
  intro rows
  have hnd := keysNodup_socCounts (loadWages rows)
  have hperm := sortDesc_perm (socCounts (loadWages rows))
  refine ⟨?_, getCommonOccupations_nodup _, countOf_socCounts rows, ?_, ?_, ?_, ?_⟩
  · rw [getCommonOccupations, List.length_map, List.length_take, hperm.length_eq]
  · intro c hc
    rw [getCommonOccupations] at hc
    rcases List.mem_map.mp hc with ⟨p, hp, hpc⟩
    have hpm : p ∈ socCounts (loadWages rows) :=
      hperm.mem_iff.mp ((List.take_sublist 100 _).subset hp)
    rw [← hpc]
    exact List.mem_map_of_mem Prod.fst hpm
  · intro hlen c hc
    have hle : (sortDesc (socCounts (loadWages rows))).length ≤ 100 := by
      rw [hperm.length_eq]
      exact hlen
    rw [getCommonOccupations, List.take_of_length_le hle]
    exact ((hperm.map Prod.fst).mem_iff).mpr hc
  · intro a b ha hb hnb
    rw [getCommonOccupations] at ha hnb
    rcases List.mem_map.mp ha with ⟨p, hptake, hpa⟩
    unfold keysOf at hb
    rcases List.mem_map.mp hb with ⟨q, hq, hqb⟩
    have hqs : q ∈ sortDesc (socCounts (loadWages rows)) := hperm.mem_iff.mpr hq
    have hsplit := List.take_append_drop 100 (sortDesc (socCounts (loadWages rows)))
    have hq2 : q ∈ (sortDesc (socCounts (loadWages rows))).take 100 ++
        (sortDesc (socCounts (loadWages rows))).drop 100 := by
      rw [hsplit]
      exact hqs
    rcases List.mem_append.mp hq2 with hqt | hqd
    · exact absurd (hqb ▸ List.mem_map_of_mem Prod.fst hqt) hnb
    · have hpw := sortDesc_pairwise _ (socCounts (loadWages rows))
        (pairwise_idxOfKey (socCounts (loadWages rows)) hnd)
      rw [← hsplit] at hpw
      rcases List.pairwise_append.mp hpw with ⟨_, _, hcross⟩
      have htq := hcross p hptake q hqd
      have hpm : p ∈ socCounts (loadWages rows) :=
        hperm.mem_iff.mp ((List.take_sublist 100 _).subset hptake)
      have hcp := countOf_of_mem _ p hnd hpm
      have hcq := countOf_of_mem _ q hnd hq
      rw [← hpa, ← hqb, hcp, hcq]
      simpa [tieOrder] using htq
  · have hT := pairwise_idxOfKey (socCounts (loadWages rows)) hnd
    have hsorted := sortDesc_pairwise _ (socCounts (loadWages rows)) hT
    have htake := hsorted.sublist (List.take_sublist 100 _)
    rw [getCommonOccupations, List.pairwise_map]
    apply List.Pairwise.imp_of_mem ?_ htake
    intro a b ha hb hab
    have hmema : a ∈ socCounts (loadWages rows) :=
      hperm.mem_iff.mp ((List.take_sublist 100 _).subset ha)
    have hmemb : b ∈ socCounts (loadWages rows) :=
      hperm.mem_iff.mp ((List.take_sublist 100 _).subset hb)
    have hca := countOf_of_mem _ a hnd hmema
    have hcb := countOf_of_mem _ b hnd hmemb
    rcases hab with h | h
    · refine Or.inl ?_
      rw [hca, hcb]
      exact h
    · refine Or.inr ⟨?_, h.2⟩
      rw [hca, hcb]
      exact h.1

set_option maxRecDepth 100000 in
set_option maxHeartbeats 2000000 in
/-- C3 witness: a table of 101 codes; the first-encountered code is
selected, the 101st is not, and the selected one ranks above it. -/
theorem c3_top_occupations_witness :
    countOf (socCounts (loadWages manySocRows)) "S100" <
        countOf (socCounts (loadWages manySocRows)) "S0" ∨
      (countOf (socCounts (loadWages manySocRows)) "S0" =
          countOf (socCounts (loadWages manySocRows)) "S100" ∧
        idxOfKey (socCounts (loadWages manySocRows)) "S0" <
          idxOfKey (socCounts (loadWages manySocRows)) "S100") :=
  (c3_top_occupations manySocRows).2.2.2.2.2.1 "S0" "S100" (by decide) (by decide) (by decide)

/-- C1: every stored annual level equals the parsed hourly level multiplied
by 2080 and rounded to the nearest integer with round-half-to-even; in
particular the row Level1=38.50, Level2=48.20, Level3=57.90, Level4=67.60
yields [80080, 100256, 120432, 140608]. -/
theorem c1_annual_levels_round_half_even :
    (∀ (rows : List WageRow) (area soc : String) (lv : Levels),
        lookup2 (loadWages rows) area soc = some lv →
        ∃ r ∈ rows, r.area = area ∧ r.soc = soc ∧
          ∃ a b c d : ℚ, r.level1 = some a ∧ r.level2 = some b ∧ r.level3 = some c ∧
            r.level4 = some d ∧
            lv = ⟨roundHalfEven (a * HOURS_PER_YEAR), roundHalfEven (b * HOURS_PER_YEAR),
                  roundHalfEven (c * HOURS_PER_YEAR), roundHalfEven (d * HOURS_PER_YEAR)⟩) ∧
    lookup2 (loadWages
        [⟨"41940", "15-1252", some (77/2), some (241/5), some (579/10), some (338/5)⟩])
      "41940" "15-1252" = some ⟨80080, 100256, 120432, 140608⟩ := by
  constructor
  · intro rows area soc lv h
    rw [lookup2_loadWages] at h
    rcases lastStored_eq_some rows area soc lv h with ⟨r, hr, ha, hs, hl⟩
    exact ⟨r, hr, ha, hs, rowLevels_eq_some hl⟩
  · decide

/-- C1 witness: the general statement applied to a one-row file. -/
theorem c1_annual_levels_round_half_even_witness :
    ∃ r ∈ [(⟨"A", "S", some 1, some 1, some 1, some 1⟩ : WageRow)], r.area = "A" ∧ r.soc = "S" ∧
      ∃ a b c d : ℚ, r.level1 = some a ∧ r.level2 = some b ∧ r.level3 = some c ∧
        r.level4 = some d ∧
        (⟨2080, 2080, 2080, 2080⟩ : Levels) =
          ⟨roundHalfEven (a * HOURS_PER_YEAR), roundHalfEven (b * HOURS_PER_YEAR),
           roundHalfEven (c * HOURS_PER_YEAR), roundHalfEven (d * HOURS_PER_YEAR)⟩ :=
  c1_annual_levels_round_half_even.1
    [⟨"A", "S", some 1, some 1, some 1, some 1⟩] "A" "S" ⟨2080, 2080, 2080, 2080⟩ (by decide)

/-- C2: a wage row any of whose four level fields is absent or fails to
parse is silently skipped — the loader output equals the output over the
fully parsed rows alone — and every fully parsed row leaves a stored entry
under its (area, soc) key. -/
theorem c2_unparsed_rows_skipped :
    (∀ rows : List WageRow,
        loadWages rows = loadWages (rows.filter fun r => (rowLevels r).isSome)) ∧
    (∀ (rows : List WageRow) (r : WageRow), r ∈ rows → (rowLevels r).isSome →
        (lookup2 (loadWages rows) r.area r.soc).isSome) := by
  constructor
  · exact loadWages_filter
  · intro rows r hmem hp
    rw [lookup2_loadWages]
    exact lastStored_isSome_of_mem rows r hmem hp

/-- C2 witness: a file of one parsed and one malformed row. -/
theorem c2_unparsed_rows_skipped_witness :
    (lookup2 (loadWages [⟨"A", "S", some 1, some 1, some 1, some 1⟩,
        ⟨"B", "S", some 1, none, some 1, some 1⟩]) "A" "S").isSome :=
  c2_unparsed_rows_skipped.2
    [⟨"A", "S", some 1, some 1, some 1, some 1⟩, ⟨"B", "S", some 1, none, some 1, some 1⟩]
    ⟨"A", "S", some 1, some 1, some 1, some 1⟩ (by decide) (by decide)

/-- C7: the occupation list holds one {code, title} entry for each
selected code present in the title mapping, in selector order; absent
codes are dropped, each title is the stored one, and a duplicate code in
the occupation file leaves the last-seen title. -/
theorem c7_occupation_list :
    ∀ (occRows : List OccRow) (wageRows : List WageRow),
      ((occList (getCommonOccupations (loadWages wageRows)) (loadOccupations occRows)).map
          Prod.fst =
        (getCommonOccupations (loadWages wageRows)).filter
          (fun s => (lookupA (loadOccupations occRows) s).isSome)) ∧
      ((occList (getCommonOccupations (loadWages wageRows)) (loadOccupations occRows)).map
          Prod.fst).Nodup ∧
      (∀ p ∈ occList (getCommonOccupations (loadWages wageRows)) (loadOccupations occRows),
        p.1 ∈ getCommonOccupations (loadWages wageRows) ∧
          lookupA (loadOccupations occRows) p.1 = some p.2) ∧
      (∀ c : String, lookupA (loadOccupations occRows) c =
        match occRows.reverse.find? (fun r => decide (r.code = c)) with
        | some r => some r.title
        | none => none) := by
  intro occRows wageRows
  refine ⟨occList_map_fst _ _, ?_, ?_, ?_⟩
  · rw [occList_map_fst]
    exact (getCommonOccupations_nodup (loadWages wageRows)).filter _
  · intro p hp
    exact mem_occList _ _ p hp
  · intro c
    exact lookupA_loadOccupations occRows c

/-- C7 witness: a duplicate occupation code keeps the last title, and the
emitted entry carries it. -/
theorem c7_occupation_list_witness :
    ("S" : String) ∈ getCommonOccupations
        (loadWages [⟨"A", "S", some 1, some 1, some 1, some 1⟩]) ∧
    lookupA (loadOccupations [⟨"S", "T1"⟩, ⟨"S", "T2"⟩]) "S" = some "T2" :=
  (c7_occupation_list [⟨"S", "T1"⟩, ⟨"S", "T2"⟩]
      [⟨"A", "S", some 1, some 1, some 1, some 1⟩]).2.2.1 ("S", "T2") (by decide)

/-- C8 counterexample: a row with a negative hourly rate parses and is
retained, and its stored annual level is negative, so retained levels are
not always non-negative. -/
theorem c8_counterexample_negative_level :
    lookup2 (loadWages [⟨"A", "S", some (-1), some (-1), some (-1), some (-1)⟩]) "A" "S" =
      some ⟨-2080, -2080, -2080, -2080⟩ ∧ (-2080 : ℤ) < 0 := by
  constructor
  · decide
  · decide

/-- C8 amended: only rows with all four levels parsed are retained, each
retained record stores the rounded integer levels of such a row, and when
the four parsed hourly rates are non-negative the stored levels are
non-negative. -/
theorem c8_retained_records :
    ∀ (rows : List WageRow) (area soc : String) (lv : Levels),
      lookup2 (loadWages rows) area soc = some lv →
      ∃ r ∈ rows, r.area = area ∧ r.soc = soc ∧ rowLevels r = some lv ∧
        (∀ a b c d : ℚ, r.level1 = some a → r.level2 = some b → r.level3 = some c →
          r.level4 = some d → 0 ≤ a → 0 ≤ b → 0 ≤ c → 0 ≤ d →
          0 ≤ lv.l1 ∧ 0 ≤ lv.l2 ∧ 0 ≤ lv.l3 ∧ 0 ≤ lv.l4) := by
  intro rows area soc lv h
  rw [lookup2_loadWages] at h
  rcases lastStored_eq_some rows area soc lv h with ⟨r, hr, ha, hs, hl⟩
  refine ⟨r, hr, ha, hs, hl, ?_⟩
  intro a b c d h1 h2 h3 h4 ha0 hb0 hc0 hd0
  rcases rowLevels_eq_some hl with ⟨a1, b1, c1, d1, g1, g2, g3, g4, glv⟩
  rw [h1] at g1
  rw [h2] at g2
  rw [h3] at g3
  rw [h4] at g4
  have ea : a1 = a := by injection g1.symm
  have eb : b1 = b := by injection g2.symm
  have ec : c1 = c := by injection g3.symm
  have ed : d1 = d := by injection g4.symm
  subst ea eb ec ed
  rw [glv]
  have h2080 : (0 : ℚ) ≤ HOURS_PER_YEAR := by norm_num [HOURS_PER_YEAR]
  exact ⟨roundHalfEven_nonneg (mul_nonneg ha0 h2080),
         roundHalfEven_nonneg (mul_nonneg hb0 h2080),
         roundHalfEven_nonneg (mul_nonneg hc0 h2080),
         roundHalfEven_nonneg (mul_nonneg hd0 h2080)⟩

/-- C4: the wage lookup output contains an area exactly when that area has
a stored entry whose soc is selected; every emitted soc is selected, its
value is the four-element array of the stored levels, and no area maps to
an empty map. -/
theorem c4_wage_lookup_shape :
    ∀ (rows : List WageRow) (sel : List String) (area : String),
      ((lookupA (createWageLookup (loadWages rows) sel) area).isSome ↔
        ∃ sd, lookupA (loadWages rows) area = some sd ∧ ∃ p ∈ sd, p.1 ∈ sel) ∧
      (∀ m, lookupA (createWageLookup (loadWages rows) sel) area = some m →
        m ≠ [] ∧ ∀ q ∈ m, q.1 ∈ sel ∧
          ∃ lv, lookup2 (loadWages rows) area q.1 = some lv ∧
            q.2 = [lv.l1, lv.l2, lv.l3, lv.l4]) := by
  intro rows sel area
  have hnd := keysNodup_loadWages rows
  have hchar := lookupA_createWageLookup sel (loadWages rows) area hnd
  constructor
  · constructor
    · intro h
      rw [hchar] at h
      cases hw : lookupA (loadWages rows) area with
      | none =>
          rw [hw] at h
          simp at h
      | some sd =>
          rw [hw] at h
          by_cases hnil : areaWages sd sel = []
          · simp [hnil] at h
          · refine ⟨sd, rfl, ?_⟩
            have h2 : ¬ ∀ p ∈ sd, p.1 ∉ sel :=
              fun hc => hnil ((areaWages_eq_nil_iff sel sd).mpr hc)
            push_neg at h2
            simpa using h2
    · rintro ⟨sd, hw, p, hp, hsel⟩
      rw [hchar, hw]
      have hnil : areaWages sd sel ≠ [] := by
        intro hc
        exact (areaWages_eq_nil_iff sel sd).mp hc p hp hsel
      simp [hnil]
  · intro m hm
    rw [hchar] at hm
    cases hw : lookupA (loadWages rows) area with
    | none =>
        rw [hw] at hm
        simp at hm
    | some sd =>
        rw [hw] at hm
        by_cases hnil : areaWages sd sel = []
        · simp [hnil] at hm
        · simp only [hnil, if_neg, ite_false] at hm
          have hm2 : areaWages sd sel = m := by
            simpa [hnil] using hm
          have hinner : keysNodup sd :=
            inner_keysNodup_loadWages rows (area, sd) (lookupA_mem hw)
          constructor
          · rw [← hm2]
            exact hnil
          · intro q hq
            rcases mem_areaWages sel sd q (hm2 ▸ hq) with ⟨p, hp, hsel, hqe⟩
            have hlk : lookupA sd p.1 = some p.2 := lookupA_eq_some_of_mem hinner hp
            refine ⟨by rw [hqe]; exact hsel, p.2, ?_, by rw [hqe]⟩
            simp [lookup2, hw, hqe, hlk]

/-- C4 witness: a one-row file with its soc selected. -/
theorem c4_wage_lookup_shape_witness :
    ([("S", [2080, 2080, 2080, 2080])] : List (String × List ℤ)) ≠ [] ∧
    ∀ q ∈ [(("S", [2080, 2080, 2080, 2080]) : String × List ℤ)], q.1 ∈ ["S"] ∧
      ∃ lv, lookup2 (loadWages [⟨"A", "S", some 1, some 1, some 1, some 1⟩]) "A" q.1 = some lv ∧
        q.2 = [lv.l1, lv.l2, lv.l3, lv.l4] :=
  (c4_wage_lookup_shape [⟨"A", "S", some 1, some 1, some 1, some 1⟩] ["S"] "A").2
    [("S", [2080, 2080, 2080, 2080])] (by decide)

/-- C8 witness: the amended statement applied to a one-row file with
non-negative rates. -/
theorem c8_retained_records_witness :
    ∃ r ∈ [(⟨"A", "S", some 1, some 1, some 1, some 1⟩ : WageRow)], r.area = "A" ∧ r.soc = "S" ∧
      rowLevels r = some ⟨2080, 2080, 2080, 2080⟩ ∧
      (∀ a b c d : ℚ, r.level1 = some a → r.level2 = some b → r.level3 = some c →
        r.level4 = some d → 0 ≤ a → 0 ≤ b → 0 ≤ c → 0 ≤ d →
        0 ≤ (⟨2080, 2080, 2080, 2080⟩ : Levels).l1 ∧ 0 ≤ (⟨2080, 2080, 2080, 2080⟩ : Levels).l2 ∧
        0 ≤ (⟨2080, 2080, 2080, 2080⟩ : Levels).l3 ∧ 0 ≤ (⟨2080, 2080, 2080, 2080⟩ : Levels).l4) :=
  c8_retained_records [⟨"A", "S", some 1, some 1, some 1, some 1⟩] "A" "S"
    ⟨2080, 2080, 2080, 2080⟩ (by decide)

end OFLC
